import Mathlib

/-!
Verification development for the tonlibjson client-side access layer:
block routing (ton-client-util and tonlibjson-client), the liteserver
request multiplexer, the first-servable-block binary search, the header
aggregation channel, per-operation timeouts and node readiness.
-/

namespace Tonlib

/-! Core block data model, following the repository's block types. -/

structure BlockId where
  workchain : Int
  shard : Int
  seqno : Int
deriving DecidableEq

structure BlockHeader where
  id : BlockId
  start_lt : Int
  end_lt : Int
deriving DecidableEq

structure MasterchainInfo where
  last : BlockId
deriving DecidableEq

/-- Mirrors itertools sorted_unstable_by_key with key negated seqno:
the list of pairs is sorted by descending second component. -/
def sort_desc_by_key {α : Type} (key : α → Int) (l : List α) : List α :=
  List.insertionSort (fun a b => key b ≤ key a) l

/-- Mirrors itertools chunk_by (also known as group_by): splits a list into
maximal runs of consecutive elements sharing an equal key. -/
def chunk_by {α : Type} (key : α → Int) : List α → List (List α)
  | [] => []
  | [a] => [[a]]
  | a :: b :: rest =>
      match chunk_by key (b :: rest) with
      | [] => [[a]]
      | g :: gs => if key a == key b then (a :: g) :: gs else [a] :: g :: gs

namespace Util

/-- Mirrors BlockCriteria of ton-client-util/src/router.rs. -/
inductive BlockCriteria where
  | seqno (shard : Int) (seqno : Int)
  | logicalTime (lt : Int)
deriving DecidableEq

/-- Mirrors Route of ton-client-util/src/router.rs. -/
inductive Route where
  | block (chain : Int) (criteria : BlockCriteria)
  | latest
deriving DecidableEq

/-- Mirrors RouterError of ton-client-util/src/router.rs. -/
inductive RouterError where
  | routeNotAvailable
  | routeUnknown
deriving DecidableEq

/-- Mirrors the Routed trait of ton-client-util/src/router.rs. -/
class Routed (S : Type) where
  contains : S → Int → BlockCriteria → Bool
  contains_not_available : S → Int → BlockCriteria → Bool
  last_seqno : S → Option Int

/-- Mirrors Route::choose of ton-client-util/src/router.rs.  For a Block
route it keeps the nodes whose contains holds, with the known flag set
when a node fails contains but satisfies contains_not_available; for
Latest it sorts the nodes having a known head by descending seqno,
groups equal seqnos and takes the first group, failing RouteUnknown
when no node has a known head. -/
def Route.choose {S : Type} [Routed S] (route : Route) (nodes : List S) :
    Except RouterError (List S) :=
  match route with
  | .block chain criteria =>
      let clients := nodes.filter (fun s => Routed.contains s chain criteria)
      let known := nodes.any (fun s =>
        !Routed.contains s chain criteria && Routed.contains_not_available s chain criteria)
      if clients.isEmpty then
        if known then .error .routeNotAvailable else .error .routeUnknown
      else
        .ok clients
  | .latest =>
      let pairs := nodes.filterMap (fun s => (Routed.last_seqno s).map (fun q => (s, q)))
      match chunk_by (fun p => p.2) (sort_desc_by_key (fun p => p.2) pairs) with
      | [] => .error .routeUnknown
      | g :: _ => .ok (g.map Prod.fst)

/-- Mirrors the MyRouted test fixture of ton-client-util/src/router.rs. -/
structure MyRouted where
  contains : Bool
  contains_not_available : Bool
  last_seqno : Option Int
deriving DecidableEq

instance instRoutedMyRouted : Routed MyRouted where
  contains s _ _ := s.contains
  contains_not_available s _ _ := s.contains_not_available
  last_seqno s := s.last_seqno

/-- Modelled from the spec: the Routed implementation for a tracked node is
not under src (only the trait, its callers and a test fixture are), so a
tracked node is modelled as a per chain and shard window table, with
contains the containment test of the spec and of balance.rs lines 39-42
(seqno within first.seqno and last.seqno, logical time within start_lt and
end_lt), while contains_not_available stays an abstract oracle field. -/
structure TrackedNode where
  windows : List ((Int × Int) × (BlockHeader × BlockHeader))
  not_available_oracle : Int → BlockCriteria → Bool
  last : Option Int

/-- Window a tracked node currently serves for a chain and shard. -/
def TrackedNode.window (n : TrackedNode) (chain shard : Int) :
    Option (BlockHeader × BlockHeader) :=
  (n.windows.find? (fun w => decide (w.1 = (chain, shard)))).map Prod.snd

instance instRoutedTrackedNode : Routed TrackedNode where
  contains n chain criteria :=
    match criteria with
    | .seqno shard s =>
        match n.window chain shard with
        | some fl => decide (fl.1.id.seqno ≤ s ∧ s ≤ fl.2.id.seqno)
        | none => false
    | .logicalTime lt =>
        n.windows.any (fun w =>
          decide (w.1.1 = chain) && decide (w.2.1.start_lt ≤ lt ∧ lt ≤ w.2.2.end_lt))
  contains_not_available n chain criteria := n.not_available_oracle chain criteria
  last_seqno n := n.last

end Util

namespace Client

/-- Mirrors BlockCriteria of tonlibjson-client/src/balance.rs. -/
inductive BlockCriteria where
  | seqno (seqno : Int)
  | logicalTime (lt : Int)
deriving DecidableEq

/-- Mirrors Route of tonlibjson-client/src/balance.rs. -/
inductive Route where
  | any
  | block (chain : Int) (criteria : BlockCriteria)
  | latest (chain : Int)
deriving DecidableEq

/-- Tracked per chain windows of a cursor client, as read through
CursorClient::headers by balance.rs (the chain keyed assoc table stands
for the per chain watch state). -/
structure CursorClient where
  windows : List (Int × (BlockHeader × BlockHeader))
deriving DecidableEq

/-- Mirrors CursorClient::headers as used by balance.rs: the (first, last)
window the client serves for a chain, when known. -/
def CursorClient.headers (c : CursorClient) (chain : Int) :
    Option (BlockHeader × BlockHeader) :=
  (c.windows.find? (fun w => decide (w.1 = chain))).map Prod.snd

/-- Mirrors the local fn last_seqno of balance.rs Route::choose. -/
def last_seqno (c : CursorClient) (chain : Int) : Option Int :=
  (c.headers chain).map (fun fl => fl.2.id.seqno)

/-- Mirrors the group selection loop of balance.rs Route::choose, Latest
branch: idxs is overwritten with each group in turn and the loop breaks
on the first group with more than two members, so the result is the
first group of size above two, and otherwise the last group. -/
def pickGroup {α : Type} : List (List α) → List α
  | [] => []
  | [g] => g
  | g :: g2 :: gs => if 2 < g.length then g else pickGroup (g2 :: gs)

/-- Mirrors Route::choose of tonlibjson-client/src/balance.rs. -/
def Route.choose (route : Route) (services : List CursorClient) : List CursorClient :=
  match route with
  | .any => services
  | .block chain criteria =>
      ((services.filterMap (fun s => (s.headers chain).map (fun m => (s, m)))).filter
        (fun sm =>
          match criteria with
          | .logicalTime lt => decide (sm.2.1.start_lt ≤ lt ∧ lt ≤ sm.2.2.end_lt)
          | .seqno seqno => decide (sm.2.1.id.seqno ≤ seqno ∧ seqno ≤ sm.2.2.id.seqno))).map
        (fun sm => sm.1)
  | .latest chain =>
      let pairs := services.filterMap (fun s => (last_seqno s chain).map (fun q => (s, q)))
      (pickGroup (chunk_by (fun p => p.2) (sort_desc_by_key (fun p => p.2) pairs))).map
        Prod.fst

end Client

namespace Util

/-- Mirrors Router::call of tonlibjson-client/src/router.rs: the chosen
candidates on success, a fallback evaluation of the Latest route when the
requested route is unknown, and RouteNotAvailable surfaced unchanged. -/
def Router.call {S : Type} [Routed S] (services : List S) (route : Route) :
    Except RouterError (List S) :=
  match route.choose services with
  | .ok s => .ok s
  | .error .routeUnknown => Route.latest.choose services
  | .error .routeNotAvailable => .error .routeNotAvailable

/-- Seqnos of the nodes that have a known head. -/
def knownSeqnos {S : Type} [Routed S] (nodes : List S) : List Int :=
  nodes.filterMap Routed.last_seqno

end Util

namespace Client

/-- Seqnos of the services with known headers for a chain. -/
def knownSeqnos (services : List CursorClient) (chain : Int) : List Int :=
  services.filterMap (fun s => last_seqno s chain)

end Client

namespace Lite

/-!
Model of ton-liteserver-client/src/client.rs: one node owns a pending-call
table keyed by correlation id, a background task multiplexing the
connection, and per call a ResponseFuture holding a clone of the shared
cancellation drop guard.  Correlation ids, slots and payloads are
numbers; the table is an association list as a model of the DashMap.
-/

/-- Pending-call table of a node: correlation id to completion slot. -/
abbrev Table : Type := List (Nat × Nat)

def Table.lookup (t : Table) (id : Nat) : Option Nat :=
  (List.find? (fun e => e.1 == id) t).map Prod.snd

def Table.insert (t : Table) (id slot : Nat) : Table :=
  (id, slot) :: List.filter (fun e => e.1 != id) t

def Table.remove (t : Table) (id : Nat) : Table :=
  List.filter (fun e => e.1 != id) t

/-- State of one node: whether the LiteServerClient handle is alive,
the ids of live in-flight ResponseFuture values (each holds a clone of
the Arc drop guard), whether the background task still runs, the
pending-call table, and the log of calls resolved with a payload. -/
structure NodeState where
  handle : Bool
  futures : List Nat
  taskAlive : Bool
  table : Table
  delivered : List (Nat × Nat)
deriving DecidableEq

/-- Holders of the shared cancellation drop guard: the client handle and
every live ResponseFuture. -/
def NodeState.guards (s : NodeState) : Nat :=
  (if s.handle then 1 else 0) + s.futures.length

/-- Micro steps of LiteServerClient::call, in source order. -/
inductive CallAction where
  | insertSlot (id : Nat)
  | sendFrame (id : Nat)
deriving DecidableEq

/-- Mirrors LiteServerClient::call: the completion slot is inserted into
the table first, then the framed request is handed to the transmit
channel; when the channel is closed a failed future (holding no guard and
no table entry of its own) is returned instead. -/
def client_call (s : NodeState) (id slot : Nat) : NodeState × List CallAction :=
  let s1 : NodeState := { s with table := s.table.insert id slot }
  if s1.taskAlive then
    ({ s1 with futures := id :: s1.futures },
      [CallAction.insertSlot id, CallAction.sendFrame id])
  else
    (s1, [CallAction.insertSlot id])

/-- Events a node state reacts to. -/
inductive Ev where
  | call (id slot : Nat)
  | dropHandle
  | dropFuture (id : Nat)
  | frame (id payload : Nat)
  | pong
  | cancelFire
  | readError
deriving DecidableEq

/-- Mirrors the receive loop arm for an answer packet: the correlation id
is looked up and removed; when present the matching future resolves with
the payload, and an absent id is silently ignored. -/
def on_frame (s : NodeState) (id payload : Nat) : NodeState :=
  match s.table.lookup id with
  | some _ =>
      { s with
        table := s.table.remove id
        futures := s.futures.filter (fun f => f != id)
        delivered := (id, payload) :: s.delivered }
  | none => s

/-- One transition of the node model, each arm modelled from client.rs:
call inserts then transmits; dropping the handle only clears the handle
flag; dropping a future removes its table entry (ResponseFuture
PinnedDrop); a frame resolves a present slot and is otherwise ignored; a
pong is consumed without resolving anything; cancellation fires only
once no guard holder is left and stops the task; a read error stops the
task. -/
def step (s : NodeState) : Ev → NodeState
  | .call id slot => (client_call s id slot).1
  | .dropHandle => { s with handle := false }
  | .dropFuture id =>
      { s with
        futures := s.futures.filter (fun f => f != id)
        table := s.table.remove id }
  | .frame id payload => if s.taskAlive then on_frame s id payload else s
  | .pong => s
  | .cancelFire =>
      if s.taskAlive && s.guards == 0 then { s with taskAlive := false } else s
  | .readError => { s with taskAlive := false }

def run (s : NodeState) (evs : List Ev) : NodeState :=
  evs.foldl step s

/-- Freshly connected node: handle alive, no futures, task running,
empty table. -/
def connected : NodeState :=
  { handle := true, futures := [], taskAlive := true, table := [], delivered := [] }

end Lite

namespace Cursor

/-!
Model of find_first_block of tonlibjson-client/src/cursor_client.rs.  The
probe oracle stands for BlocksLookupBlock::seqno succeeding or failing at
a seqno; the loop state is (lhs, rhs, cur) and the returned trace lists
every probed seqno of the loop.
-/

/-- Loop of find_first_block: while lhs < rhs, a failing probe at cur
moves lhs to cur + 1 and a successful one moves rhs down to cur, then
cur becomes the midpoint of the updated bounds and is probed again.
Returns the probed seqnos of the loop together with the final
(lhs, rhs, cur).  The fuel argument is a modelling artifact; with fuel
above rhs - lhs the loop always completes. -/
def bsLoop (probe : Nat → Bool) : Nat → Nat → Nat → Nat →
    Option (List Nat × Nat × Nat × Nat)
  | 0, _, _, _ => none
  | fuel + 1, lhs, rhs, cur =>
      if lhs < rhs then
        if probe cur then
          let rhs2 := cur
          let cur2 := (lhs + rhs2) / 2
          (bsLoop probe fuel lhs rhs2 cur2).map (fun r => (cur2 :: r.1, r.2))
        else
          let lhs2 := cur + 1
          let cur2 := (lhs2 + rhs) / 2
          (bsLoop probe fuel lhs2 rhs cur2).map (fun r => (cur2 :: r.1, r.2))
      else
        some ([], lhs, rhs, cur)

/-- Mirrors find_first_block: length is the current head seqno, the first
probe is at length / 2 with bounds [1, length], then the loop runs.  The
result carries every probed seqno in order and the final bounds and
cursor. -/
def find_first_block (probe : Nat → Bool) (head_seqno : Nat) :
    Option (List Nat × Nat × Nat × Nat) :=
  (bsLoop probe (head_seqno + 1) 1 head_seqno (head_seqno / 2)).map
    (fun r => (head_seqno / 2 :: r.1, r.2))

/-- Mirrors the final GetBlockHeader::new(block?) of find_first_block:
the function returns a header only when the last probe, at the final
cursor, succeeded, and that header is for the final cursor seqno. -/
def first_block_seqno (probe : Nat → Bool) (head_seqno : Nat) : Option Nat :=
  (find_first_block probe head_seqno).bind
    (fun r => if probe r.2.2.2 then some r.2.2.2 else none)

end Cursor

namespace Chan

/-!
Model of BlockChannel of tonlibjson-client/src/balance.rs: a dynamic set
of member streams merged into one broadcast channel under a Max or Min
reducer with a last_seqno tracker initialised to 0.
-/

inductive Mode where
  | max
  | min
deriving DecidableEq

structure ChanState where
  members : List Nat
  last_seqno : Int
  published : List (BlockHeader × BlockHeader)
deriving DecidableEq

inductive ChanEv where
  | insert (key : Nat)
  | remove (key : Nat)
  | item (key : Nat) (master worker : BlockHeader)
deriving DecidableEq

/-- Publication test of the BlockChannel select loop: last_seqno is 0 or
the mode comparison holds between the tracker and the incoming seqno. -/
def publishCond (mode : Mode) (last q : Int) : Bool :=
  last == 0 ||
    (match mode with
     | .max => decide (last < q)
     | .min => decide (q < last))

/-- One iteration of the BlockChannel select loop: an Insert or Remove
change updates the member set and publishes nothing; an item of a member
stream is published exactly when last_seqno is 0 or the mode comparison
holds, in which case last_seqno becomes the masterchain seqno of the
item. -/
def chanStep (mode : Mode) (s : ChanState) : ChanEv → ChanState
  | .insert k => { s with members := k :: s.members.filter (fun m => m != k) }
  | .remove k => { s with members := s.members.filter (fun m => m != k) }
  | .item k master worker =>
      if k ∈ s.members then
        if publishCond mode s.last_seqno master.id.seqno then
          { s with
            last_seqno := master.id.seqno
            published := s.published ++ [(master, worker)] }
        else s
      else s

def chanRun (mode : Mode) (s : ChanState) (evs : List ChanEv) : ChanState :=
  evs.foldl (chanStep mode) s

def chanInit : ChanState :=
  { members := [], last_seqno := 0, published := [] }

/-- Member set obtained by applying only the Insert and Remove events, the
reference for runtime membership changes. -/
def memberFold (members : List Nat) : List ChanEv → List Nat
  | [] => members
  | .insert k :: evs => memberFold (k :: members.filter (fun m => m != k)) evs
  | .remove k :: evs => memberFold (members.filter (fun m => m != k)) evs
  | .item _ _ _ :: evs => memberFold members evs

/-- Masterchain seqnos of the published items, in publication order. -/
def publishedSeqnos (s : ChanState) : List Int :=
  s.published.map (fun p => p.1.id.seqno)

/-- Publication order of a mode: Max publishes strictly increasing
masterchain seqnos, Min strictly decreasing ones. -/
def modeRel : Mode → Int → Int → Prop
  | .max => fun a b => a < b
  | .min => fun a b => b < a

end Chan

namespace Timeouts

/-- Closed enumeration standing for the Functional request types of
tonlibjson-client (the concrete types are generated code not under src;
the set is modelled from the operations block.rs implements Routable
for, plus the sync-to-head operation). -/
inductive TonFunction where
  | sync
  | getMasterchainInfo
  | blocksLookupBlock
  | blocksGetBlockHeader
  | blocksGetShards
  | blocksGetTransactions
  | rawGetTransactionsV2
  | rawSendMessage
  | smcLoad
deriving DecidableEq

/-- Mirrors the blanket Requestable::timeout of block.rs lines 212-223:
five minutes when the TypeId is the Sync operation, three seconds
otherwise (in seconds). -/
def requestableTimeout (t : TonFunction) : Nat :=
  if t = .sync then 5 * 60 else 3

/-- Mirrors WithBlock's Requestable impl of block.rs: the timeout of the
wrapped function. -/
def withBlockTimeout (t : TonFunction) : Nat :=
  requestableTimeout t

/-- Mirrors Request::new of tonlibjson-tokio/src/request.rs: the default
timeout of three seconds. -/
def requestNewTimeout : Nat := 3

end Timeouts

namespace Cursor

/-- Poll result of the inner service. -/
inductive PollResult where
  | ready
  | readyErr
  | pending
deriving DecidableEq

/-- Tracked watch state of a CursorClient: first (oldest servable) header,
last (head) header, masterchain snapshot. -/
structure TrackedState where
  first_block : Option BlockHeader
  last_block : Option BlockHeader
  masterchain_info : Option MasterchainInfo
deriving DecidableEq

/-- Mirrors CursorClient poll_ready of cursor_client.rs lines 133-143:
the inner client poll is consulted only once the last header, the first
header and the masterchain snapshot are all defined; otherwise Pending. -/
def poll_ready (c : TrackedState) (inner : PollResult) : PollResult :=
  if c.last_block.isSome && c.first_block.isSome && c.masterchain_info.isSome then
    inner
  else
    .pending

end Cursor

instance {ε α : Type} [DecidableEq ε] [DecidableEq α] : DecidableEq (Except ε α) :=
  fun x y =>
    match x, y with
    | .ok a, .ok b =>
        if h : a = b then .isTrue (by rw [h])
        else .isFalse (by intro hc; cases hc; exact h rfl)
    | .error e, .error f =>
        if h : e = f then .isTrue (by rw [h])
        else .isFalse (by intro hc; cases hc; exact h rfl)
    | .ok _, .error _ => .isFalse (by intro hc; cases hc)
    | .error _, .ok _ => .isFalse (by intro hc; cases hc)

namespace Fixtures

/-- Header fixture with masterchain ids, seqno s and logical time bounds lt. -/
def testHeader (s lt : Int) : BlockHeader :=
  { id := { workchain := -1, shard := 0, seqno := s }, start_lt := lt, end_lt := lt }

def m100a : Util.MyRouted := { contains := true, contains_not_available := false, last_seqno := some 100 }

def m100b : Util.MyRouted := { contains := false, contains_not_available := true, last_seqno := some 100 }

def m100c : Util.MyRouted := { contains := true, contains_not_available := true, last_seqno := some 100 }

def m70 : Util.MyRouted := { contains := false, contains_not_available := false, last_seqno := some 70 }

/-- Node with no containment, no plausible coverage and no known head. -/
def mBlank : Util.MyRouted := { contains := false, contains_not_available := false, last_seqno := none }

/-- Node with no containment but plausible historical coverage. -/
def mKnown : Util.MyRouted := { contains := false, contains_not_available := true, last_seqno := none }

def c100a : Client.CursorClient := { windows := [(-1, (testHeader 1 1, testHeader 100 10))] }

def c100b : Client.CursorClient := { windows := [(-1, (testHeader 1 2, testHeader 100 20))] }

def c100c : Client.CursorClient := { windows := [(-1, (testHeader 1 3, testHeader 100 30))] }

def c70 : Client.CursorClient := { windows := [(-1, (testHeader 1 4, testHeader 70 40))] }

/-- Oracle fixture reporting no plausible historical coverage. -/
def noOracle : Int → Util.BlockCriteria → Bool := fun _ _ => false

/-- Tracked node serving seqnos 10 to 20 of chain 0, shard 8. -/
def tnode : Util.TrackedNode :=
  { windows := [((0, 8), (testHeader 10 100, testHeader 20 200))]
    not_available_oracle := noOracle
    last := some 20 }

/-- Header fixture with masterchain seqno 0, start of the chain. -/
def h0 : BlockHeader := testHeader 0 0

def h5 : BlockHeader := testHeader 5 50

def h7 : BlockHeader := testHeader 7 70

end Fixtures

/-! Theorems.  Facts about sorting and consecutive grouping shared by the
two Latest selection proofs, then the claims. -/


theorem chunk_by_cons_eq {α : Type} (key : α → Int) (a : α) (as : List α) :
    chunk_by key (a :: as) =
      (a :: as.takeWhile (fun b => key b == key a)) ::
        chunk_by key (as.dropWhile (fun b => key b == key a)) := by
  induction as generalizing a with
  | nil => rfl
  | cons b rest ih =>
      have hmain : chunk_by key (a :: b :: rest) =
          match chunk_by key (b :: rest) with
          | [] => [[a]]
          | g :: gs => if key a == key b then (a :: g) :: gs else [a] :: g :: gs := rfl
      rw [hmain, ih b]
      by_cases h : key a = key b
      · have hb : (key a == key b) = true := by simp [h]
        have hpred : (fun x => key x == key a) = (fun x => key x == key b) := by
          funext x; rw [h]
        have hb2 : (key b == key a) = true := by simp [h]
        simp only [hb, if_true, List.takeWhile_cons, List.dropWhile_cons, hpred, hb2]
        simp
      · have hb : (key a == key b) = false := by simp [h]
        have hb2 : (key b == key a) = false := by
          simp only [beq_eq_false_iff_ne, ne_eq]
          exact fun hc => h hc.symm
        simp only [hb, List.takeWhile_cons, List.dropWhile_cons, hb2, Bool.false_eq_true,
          if_false, ← ih b]

theorem chunk_by_flatten {α : Type} (key : α → Int) :
    ∀ l : List α, (chunk_by key l).flatten = l
  | [] => by simp [chunk_by]
  | a :: as => by
      rw [chunk_by_cons_eq]
      have ih := chunk_by_flatten key (as.dropWhile (fun b => key b == key a))
      simp [ih, List.takeWhile_append_dropWhile]
termination_by l => l.length
decreasing_by
  simp only [List.length_cons]
  exact Nat.lt_succ_of_le (List.dropWhile_sublist _).length_le

theorem takeWhile_key_eq_filter {α : Type} (key : α → Int) (m : Int) :
    ∀ l : List α, l.Pairwise (fun x y => key y ≤ key x) → (∀ x ∈ l, key x ≤ m) →
      l.takeWhile (fun x => key x == m) = l.filter (fun x => key x == m)
  | [], _, _ => rfl
  | x :: xs, hs, hub => by
      rcases List.pairwise_cons.mp hs with ⟨hx, hxs⟩
      by_cases h : key x = m
      · have hb : (key x == m) = true := by simp [h]
        simp only [List.takeWhile_cons, List.filter_cons, hb, if_true]
        rw [takeWhile_key_eq_filter key m xs hxs (fun y hy => hub y (List.mem_cons_of_mem x hy))]
      · have hb : (key x == m) = false := by simp [h]
        have hlt : key x < m := lt_of_le_of_ne (hub x (List.mem_cons_self x xs)) h
        have hnil : xs.filter (fun y => key y == m) = [] := by
          rw [List.filter_eq_nil_iff]
          intro y hy
          have hylt : key y < m := lt_of_le_of_lt (hx y hy) hlt
          simp [ne_of_lt hylt]
        simp [List.takeWhile_cons, List.filter_cons, hb, hnil]

theorem dropWhile_key_lt {α : Type} (key : α → Int) (m : Int) :
    ∀ l : List α, l.Pairwise (fun x y => key y ≤ key x) → (∀ x ∈ l, key x ≤ m) →
      ∀ x ∈ l.dropWhile (fun b => key b == m), key x < m
  | [], _, _ => by simp
  | x :: xs, hs, hub => by
      rcases List.pairwise_cons.mp hs with ⟨hx, hxs⟩
      by_cases h : key x = m
      · have hb : (key x == m) = true := by simp [h]
        simp only [List.dropWhile_cons, hb, if_true]
        exact dropWhile_key_lt key m xs hxs (fun y hy => hub y (List.mem_cons_of_mem x hy))
      · have hb : (key x == m) = false := by simp [h]
        have hlt : key x < m := lt_of_le_of_ne (hub x (List.mem_cons_self x xs)) h
        simp only [List.dropWhile_cons, hb, Bool.false_eq_true, if_false]
        intro y hy
        rcases List.mem_cons.mp hy with rfl | hy2
        · exact hlt
        · exact lt_of_le_of_lt (hx y hy2) hlt


theorem chunks_spec {α : Type} (key : α → Int) :
    ∀ l : List α, l.Pairwise (fun x y => key y ≤ key x) →
      ∀ g ∈ chunk_by key l,
        g ≠ [] ∧ ∃ k, (∀ x ∈ g, key x = k) ∧ g = l.filter (fun x => key x == k)
  | [], _, g, hg => by simp [chunk_by] at hg
  | a :: as, hs, g, hg => by
      rcases List.pairwise_cons.mp hs with ⟨ha, has⟩
      rw [chunk_by_cons_eq] at hg
      rcases List.mem_cons.mp hg with rfl | hg2
      · refine ⟨by simp, key a, ?_, ?_⟩
        · intro x hx
          rcases List.mem_cons.mp hx with rfl | hx2
          · rfl
          · simpa using List.mem_takeWhile_imp hx2
        · have hfil : as.takeWhile (fun b => key b == key a) =
              as.filter (fun b => key b == key a) :=
            takeWhile_key_eq_filter key (key a) as has ha
          simp [List.filter_cons, hfil]
      · have hds : (as.dropWhile (fun b => key b == key a)).Pairwise
            (fun x y => key y ≤ key x) := has.sublist (List.dropWhile_sublist _)
        rcases chunks_spec key (as.dropWhile (fun b => key b == key a)) hds g hg2 with
          ⟨hne, k, hk, hfil⟩
        refine ⟨hne, k, hk, ?_⟩
        have hdlt : ∀ x ∈ as.dropWhile (fun b => key b == key a), key x < key a :=
          dropWhile_key_lt key (key a) as has ha
        obtain ⟨x0, hx0⟩ : ∃ x, x ∈ g := List.exists_mem_of_ne_nil g hne
        have hx0d : x0 ∈ as.dropWhile (fun b => key b == key a) := by
          rw [hfil] at hx0
          exact (List.mem_filter.mp hx0).1
        have hklt : k < key a := by
          have hlt := hdlt x0 hx0d
          rwa [hk x0 hx0] at hlt
        have h1 : (key a == k) = false := by simp [ne_of_gt hklt]
        have h2 : (as.takeWhile (fun b => key b == key a)).filter
            (fun x => key x == k) = [] := by
          rw [List.filter_eq_nil_iff]
          intro y hy
          have hya : key y = key a := by simpa using List.mem_takeWhile_imp hy
          simp [hya, ne_of_gt hklt]
        rw [hfil, List.filter_cons, h1]
        rw [← List.takeWhile_append_dropWhile (p := fun b => key b == key a) (l := as),
          List.filter_append, h2, List.nil_append]
        simp
termination_by l => l.length
decreasing_by
  simp only [List.length_cons]
  exact Nat.lt_succ_of_le (List.dropWhile_sublist _).length_le

theorem chunks_keys_lt {α : Type} (key : α → Int) :
    ∀ l : List α, l.Pairwise (fun x y => key y ≤ key x) →
      (chunk_by key l).Pairwise (fun g h => ∀ x ∈ g, ∀ y ∈ h, key y < key x)
  | [], _ => by simp [chunk_by]
  | a :: as, hs => by
      rcases List.pairwise_cons.mp hs with ⟨ha, has⟩
      rw [chunk_by_cons_eq]
      refine List.pairwise_cons.mpr ⟨?_, chunks_keys_lt key _
        (has.sublist (List.dropWhile_sublist _))⟩
      intro h hmem x hx y hy
      have hyd : y ∈ as.dropWhile (fun b => key b == key a) := by
        have hfl : y ∈ (chunk_by key (as.dropWhile (fun b => key b == key a))).flatten :=
          List.mem_flatten.mpr ⟨h, hmem, hy⟩
        rwa [chunk_by_flatten] at hfl
      have hylt : key y < key a := dropWhile_key_lt key (key a) as has ha y hyd
      have hxa : key x = key a := by
        rcases List.mem_cons.mp hx with rfl | hx2
        · rfl
        · simpa using List.mem_takeWhile_imp hx2
      rw [hxa]
      exact hylt
termination_by l => l.length
decreasing_by
  simp only [List.length_cons]
  exact Nat.lt_succ_of_le (List.dropWhile_sublist _).length_le


theorem pickGroup_append_first {α : Type} (g : List α) (cs2 : List (List α)) :
    ∀ cs1 : List (List α), (∀ h ∈ cs1, ¬ 2 < h.length) → 2 < g.length →
      Client.pickGroup (cs1 ++ g :: cs2) = g
  | [], _, hg => by
      cases cs2 with
      | nil => simp [Client.pickGroup]
      | cons c cs => simp [Client.pickGroup, hg]
  | c :: cs1, h1, hg => by
      have hc := h1 c (List.mem_cons_self c cs1)
      obtain ⟨r, rs, hr⟩ : ∃ r rs, cs1 ++ g :: cs2 = r :: rs := by
        cases cs1 with
        | nil => exact ⟨g, cs2, rfl⟩
        | cons x xs => exact ⟨x, xs ++ g :: cs2, by simp⟩
      have step : Client.pickGroup (c :: cs1 ++ g :: cs2) =
          Client.pickGroup (cs1 ++ g :: cs2) := by
        rw [List.cons_append, hr]
        simp [Client.pickGroup, hc]
      rw [step]
      exact pickGroup_append_first g cs2 cs1
        (fun h hh => h1 h (List.mem_cons_of_mem c hh)) hg

theorem pickGroup_getLast {α : Type} :
    ∀ cs : List (List α), (∀ g ∈ cs, ¬ 2 < g.length) → (hne : cs ≠ []) →
      Client.pickGroup cs = cs.getLast hne
  | [], _, hne => absurd rfl hne
  | [g], _, _ => by simp [Client.pickGroup]
  | g :: g2 :: gs, h, _ => by
      have hg := h g (List.mem_cons_self g (g2 :: gs))
      have ih := pickGroup_getLast (g2 :: gs)
        (fun x hx => h x (List.mem_cons_of_mem g hx)) (by simp)
      simp only [Client.pickGroup, hg, if_false]
      rw [ih]
      exact (List.getLast_cons (by simp)).symm

theorem pickGroup_mem {α : Type} :
    ∀ cs : List (List α), cs ≠ [] → Client.pickGroup cs ∈ cs
  | [], h => absurd rfl h
  | [g], _ => by simp [Client.pickGroup]
  | g :: g2 :: gs, _ => by
      by_cases h : 2 < g.length
      · simp [Client.pickGroup, h]
      · have ih := pickGroup_mem (g2 :: gs) (by simp)
        simp only [Client.pickGroup, h, if_false]
        exact List.mem_cons_of_mem g ih

theorem exists_first_split {α : Type} (p : α → Bool) :
    ∀ l : List α, (∃ x ∈ l, p x = true) →
      ∃ l1 a l2, l = l1 ++ a :: l2 ∧ p a = true ∧ ∀ x ∈ l1, p x = false
  | [], h => by simp at h
  | x :: xs, h => by
      by_cases hx : p x = true
      · exact ⟨[], x, xs, by simp, hx, by simp⟩
      · have hxs : ∃ y ∈ xs, p y = true := by
          rcases h with ⟨y, hy, hp⟩
          rcases List.mem_cons.mp hy with rfl | hy2
          · exact absurd hp hx
          · exact ⟨y, hy2, hp⟩
        rcases exists_first_split p xs hxs with ⟨l1, a, l2, heq, hpa, hl1⟩
        refine ⟨x :: l1, a, l2, by simp [heq], hpa, ?_⟩
        intro y hy
        rcases List.mem_cons.mp hy with rfl | hy2
        · exact Bool.not_eq_true _ ▸ (by simpa using hx)
        · exact hl1 y hy2

theorem pairs_map_fst_filter {S : Type} (f : S → Option Int) (m : Int) :
    ∀ nodes : List S,
      ((nodes.filterMap (fun s => (f s).map (fun q => (s, q)))).filter
          (fun p => p.2 == m)).map Prod.fst
        = nodes.filter (fun s => f s == some m)
  | [] => rfl
  | s :: rest => by
      have ih := pairs_map_fst_filter f m rest
      cases hf : f s with
      | none => simp [List.filterMap_cons, hf, List.filter_cons, ih]
      | some q =>
          by_cases hq : q = m
          · simp [List.filterMap_cons, hf, List.filter_cons, hq, ih]
          · simp [List.filterMap_cons, hf, List.filter_cons, hq, ih]

theorem pairs_map_snd {S : Type} (f : S → Option Int) :
    ∀ nodes : List S,
      (nodes.filterMap (fun s => (f s).map (fun q => (s, q)))).map Prod.snd
        = nodes.filterMap f
  | [] => rfl
  | s :: rest => by
      cases hf : f s <;>
        simp [List.filterMap_cons, hf, pairs_map_snd f rest]

theorem sort_desc_perm {α : Type} (key : α → Int) (l : List α) :
    (sort_desc_by_key key l).Perm l :=
  List.perm_insertionSort _ l

theorem sort_desc_sorted {α : Type} (key : α → Int) (l : List α) :
    (sort_desc_by_key key l).Pairwise (fun x y => key y ≤ key x) := by
  haveI : IsTotal α (fun x y => key y ≤ key x) := ⟨fun a b => le_total (key b) (key a)⟩
  haveI : IsTrans α (fun x y => key y ≤ key x) := ⟨fun _ _ _ hab hbc => le_trans hbc hab⟩
  exact List.sorted_insertionSort _ l


theorem chunk_sorted_head {α : Type} (pairs : List (α × Int)) (m : Int)
    (hm : m ∈ pairs.map Prod.snd) (hub : ∀ s ∈ pairs.map Prod.snd, s ≤ m) :
    ∃ t, chunk_by (fun p : α × Int => p.2) (sort_desc_by_key (fun p => p.2) pairs) =
      ((sort_desc_by_key (fun p : α × Int => p.2) pairs).filter
        (fun p => p.2 == m)) :: t := by
  have hperm := sort_desc_perm (fun p : α × Int => p.2) pairs
  have hsortd := sort_desc_sorted (fun p : α × Int => p.2) pairs
  cases hsx : sort_desc_by_key (fun p : α × Int => p.2) pairs with
  | nil =>
      rw [hsx] at hperm
      have hpn : pairs = [] := hperm.symm.eq_nil
      rw [hpn] at hm
      cases hm
  | cons a as =>
      rw [hsx] at hsortd hperm
      have ham : a.2 = m := by
        have h1 : a.2 ≤ m := hub a.2 ((hperm.map Prod.snd).mem_iff.mp
          (List.mem_map_of_mem Prod.snd (List.mem_cons_self a as)))
        have h2 : m ≤ a.2 := by
          rcases List.mem_map.mp ((hperm.map Prod.snd).mem_iff.mpr hm) with ⟨p, hpmem, hp2⟩
          rcases List.mem_cons.mp hpmem with rfl | hpin
          · exact le_of_eq hp2.symm
          · have hle := (List.pairwise_cons.mp hsortd).1 p hpin
            rw [hp2] at hle
            exact hle
        exact le_antisymm h1 h2
      refine ⟨chunk_by (fun p : α × Int => p.2)
        (as.dropWhile (fun b => b.2 == a.2)), ?_⟩
      rw [chunk_by_cons_eq]
      congr 1
      have hpred : (fun b : α × Int => b.2 == a.2) = (fun b : α × Int => b.2 == m) := by
        funext b
        rw [ham]
      have hfil : as.takeWhile (fun b : α × Int => b.2 == a.2) =
          as.filter (fun b : α × Int => b.2 == a.2) :=
        takeWhile_key_eq_filter (fun p : α × Int => p.2) a.2 as
          (List.pairwise_cons.mp hsortd).2 (fun x hx => (List.pairwise_cons.mp hsortd).1 x hx)
      have hba : (a.2 == m) = true := by simp [ham]
      rw [List.filter_cons, hba]
      rw [hpred] at hfil
      simp [hfil, hpred]

theorem count_filter_sorted {α : Type} (pairs : List (α × Int)) (k : Int) :
    ((sort_desc_by_key (fun p : α × Int => p.2) pairs).filter
        (fun p => p.2 == k)).length = (pairs.map Prod.snd).count k := by
  have hperm := sort_desc_perm (fun p : α × Int => p.2) pairs
  rw [← List.countP_eq_length_filter, List.count, List.countP_map, hperm.countP_eq]
  rfl

theorem chunk_pick_quorum {α : Type} (pairs : List (α × Int)) (m : Int)
    (hm : 2 < (pairs.map Prod.snd).count m)
    (hub : ∀ s, 2 < (pairs.map Prod.snd).count s → s ≤ m) :
    Client.pickGroup (chunk_by (fun p : α × Int => p.2)
        (sort_desc_by_key (fun p => p.2) pairs)) =
      (sort_desc_by_key (fun p : α × Int => p.2) pairs).filter (fun p => p.2 == m) := by
  have hperm := sort_desc_perm (fun p : α × Int => p.2) pairs
  have hsortd := sort_desc_sorted (fun p : α × Int => p.2) pairs
  have hkeys := chunks_keys_lt (fun p : α × Int => p.2) _ hsortd
  -- the chunk holding the quorum seqno m
  have hmmem : m ∈ (sort_desc_by_key (fun p : α × Int => p.2) pairs).map Prod.snd := by
    have : 0 < (pairs.map Prod.snd).count m := by omega
    have hmm := List.count_pos_iff.mp this
    exact ((hperm.map Prod.snd).mem_iff).mpr hmm
  rcases List.mem_map.mp hmmem with ⟨pm, hpmmem, hpm2⟩
  have hpmfl : pm ∈ (chunk_by (fun p : α × Int => p.2)
      (sort_desc_by_key (fun p => p.2) pairs)).flatten := by
    rw [chunk_by_flatten]
    exact hpmmem
  rcases List.mem_flatten.mp hpmfl with ⟨gm, hgmmem, hpmgm⟩
  rcases chunks_spec (fun p : α × Int => p.2) _ hsortd gm hgmmem with ⟨hgmne, km, hkm, hgmfil⟩
  have hkmm : km = m := by rw [← hkm pm hpmgm, hpm2]
  have hgmlen : 2 < gm.length := by
    rw [hgmfil, hkmm, count_filter_sorted]
    exact hm
  -- first chunk with more than two members
  have hex : ∃ g ∈ chunk_by (fun p : α × Int => p.2)
      (sort_desc_by_key (fun p => p.2) pairs), decide (2 < g.length) = true :=
    ⟨gm, hgmmem, by simpa using hgmlen⟩
  rcases exists_first_split (fun g : List (α × Int) => decide (2 < g.length))
      (chunk_by (fun p : α × Int => p.2) (sort_desc_by_key (fun p => p.2) pairs)) hex with
    ⟨cs1, g, cs2, hsplit, hpg, hcs1⟩
  have hglen : 2 < g.length := by simpa using hpg
  have hpick : Client.pickGroup (chunk_by (fun p : α × Int => p.2)
      (sort_desc_by_key (fun p => p.2) pairs)) = g := by
    rw [hsplit]
    exact pickGroup_append_first g cs2 cs1
      (fun h hh => by simpa using hcs1 h hh) hglen
  have hgmem : g ∈ chunk_by (fun p : α × Int => p.2)
      (sort_desc_by_key (fun p => p.2) pairs) := by
    rw [hsplit]
    exact List.mem_append_right cs1 (List.mem_cons_self g cs2)
  rcases chunks_spec (fun p : α × Int => p.2) _ hsortd g hgmem with ⟨hgne, k, hk, hgfil⟩
  have hkm2 : k = m := by
    have hkle : k ≤ m := by
      apply hub
      have : (g.length : Nat) = (pairs.map Prod.snd).count k := by
        rw [hgfil, count_filter_sorted]
      omega
    rcases List.mem_append.mp (hsplit ▸ hgmmem) with hin1 | hin2
    · have := hcs1 gm hin1
      simp [hgmlen] at this
    · rcases List.mem_cons.mp hin2 with rfl | hin3
      · obtain ⟨x0, hx0⟩ := List.exists_mem_of_ne_nil _ hgne
        rw [← hk x0 hx0, hkm x0 hx0]
        exact hkmm
      · exfalso
        have hpw := hsplit ▸ hkeys
        have hrel := (List.pairwise_cons.mp (List.pairwise_append.mp hpw).2.1).1 gm hin3
        obtain ⟨x0, hx0⟩ := List.exists_mem_of_ne_nil g hgne
        obtain ⟨y0, hy0⟩ := List.exists_mem_of_ne_nil gm hgmne
        have hlt : y0.2 < x0.2 := hrel x0 hx0 y0 hy0
        rw [hk x0 hx0, hkm y0 hy0, hkmm] at hlt
        omega
  rw [hpick, hgfil, hkm2]

theorem chunk_pick_min {α : Type} (pairs : List (α × Int)) (m : Int)
    (hnoq : ∀ s, ¬ 2 < (pairs.map Prod.snd).count s)
    (hm : m ∈ pairs.map Prod.snd)
    (hlb : ∀ s ∈ pairs.map Prod.snd, m ≤ s) :
    Client.pickGroup (chunk_by (fun p : α × Int => p.2)
        (sort_desc_by_key (fun p => p.2) pairs)) =
      (sort_desc_by_key (fun p : α × Int => p.2) pairs).filter (fun p => p.2 == m) := by
  have hperm := sort_desc_perm (fun p : α × Int => p.2) pairs
  have hsortd := sort_desc_sorted (fun p : α × Int => p.2) pairs
  have hkeys := chunks_keys_lt (fun p : α × Int => p.2) _ hsortd
  have hmmem : m ∈ (sort_desc_by_key (fun p : α × Int => p.2) pairs).map Prod.snd :=
    ((hperm.map Prod.snd).mem_iff).mpr hm
  rcases List.mem_map.mp hmmem with ⟨pm, hpmmem, hpm2⟩
  have hpmfl : pm ∈ (chunk_by (fun p : α × Int => p.2)
      (sort_desc_by_key (fun p => p.2) pairs)).flatten := by
    rw [chunk_by_flatten]
    exact hpmmem
  rcases List.mem_flatten.mp hpmfl with ⟨gm, hgmmem, hpmgm⟩
  rcases chunks_spec (fun p : α × Int => p.2) _ hsortd gm hgmmem with ⟨hgmne, km, hkm, hgmfil⟩
  have hkmm : km = m := by rw [← hkm pm hpmgm, hpm2]
  have hcsne : chunk_by (fun p : α × Int => p.2)
      (sort_desc_by_key (fun p => p.2) pairs) ≠ [] := by
    intro h
    rw [h] at hgmmem
    cases hgmmem
  have hshort : ∀ g ∈ chunk_by (fun p : α × Int => p.2)
      (sort_desc_by_key (fun p => p.2) pairs), ¬ 2 < g.length := by
    intro g hg
    rcases chunks_spec (fun p : α × Int => p.2) _ hsortd g hg with ⟨_, k, _, hgfil⟩
    rw [hgfil, count_filter_sorted]
    exact hnoq k
  have hpick := pickGroup_getLast _ hshort hcsne
  have hlmem := List.getLast_mem hcsne
  rcases chunks_spec (fun p : α × Int => p.2) _ hsortd _ hlmem with ⟨hlne, k, hk, hlfil⟩
  have hkm2 : k = m := by
    obtain ⟨x0, hx0⟩ := List.exists_mem_of_ne_nil _ hlne
    have hkks : k ∈ pairs.map Prod.snd := by
      have hx0s : x0 ∈ sort_desc_by_key (fun p : α × Int => p.2) pairs := by
        have := hlfil ▸ hx0
        exact (List.mem_filter.mp this).1
      have := List.mem_map_of_mem Prod.snd hx0s
      rw [hk x0 hx0] at this
      exact ((hperm.map Prod.snd).mem_iff).mp this
    have hmk : m ≤ k := hlb k hkks
    rcases List.mem_append.mp ((List.dropLast_append_getLast hcsne) ▸ hgmmem) with hin1 | hin2
    · exfalso
      have hpw := (List.dropLast_append_getLast hcsne) ▸ hkeys
      have hrel := (List.pairwise_append.mp hpw).2.2 gm hin1 _ (List.mem_cons_self _ _)
      obtain ⟨y0, hy0⟩ := List.exists_mem_of_ne_nil gm hgmne
      have hlt : x0.2 < y0.2 := hrel y0 hy0 x0 hx0
      rw [hkm y0 hy0, hkmm, hk x0 hx0] at hlt
      omega
    · rcases List.mem_cons.mp hin2 with heq | hin3
      · obtain ⟨y0, hy0⟩ := List.exists_mem_of_ne_nil gm hgmne
        have e1 : y0.2 = k := hk y0 (heq ▸ hy0)
        have e2 : y0.2 = km := hkm y0 hy0
        rw [← e1, e2]
        exact hkmm
      · cases hin3
  rw [hpick, hlfil, hkm2]


theorem util_choose_latest_eq {S : Type} [Util.Routed S] (nodes : List S) :
    Util.Route.choose Util.Route.latest nodes =
      match chunk_by (fun p : S × Int => p.2) (sort_desc_by_key (fun p => p.2)
          (nodes.filterMap (fun s => (Util.Routed.last_seqno s).map (fun q => (s, q))))) with
      | [] => Except.error Util.RouterError.routeUnknown
      | g :: _ => Except.ok (g.map Prod.fst) := rfl

theorem util_latest_spec {S : Type} [Util.Routed S] (nodes : List S) :
    (Util.Route.choose Util.Route.latest nodes =
        Except.error Util.RouterError.routeUnknown ↔ Util.knownSeqnos nodes = []) ∧
    (∀ m, m ∈ Util.knownSeqnos nodes → (∀ s ∈ Util.knownSeqnos nodes, s ≤ m) →
      ∃ g, Util.Route.choose Util.Route.latest nodes = Except.ok g ∧
        g.Perm (nodes.filter (fun s => Util.Routed.last_seqno s == some m))) := by
  have hks : Util.knownSeqnos nodes =
      (nodes.filterMap (fun s =>
        (Util.Routed.last_seqno s).map (fun q => (s, q)))).map Prod.snd :=
    (pairs_map_snd Util.Routed.last_seqno nodes).symm
  have hperm := sort_desc_perm (fun p : S × Int => p.2)
    (nodes.filterMap (fun s => (Util.Routed.last_seqno s).map (fun q => (s, q))))
  constructor
  · constructor
    · intro h
      rw [hks]
      by_contra hne
      have hpn : nodes.filterMap (fun s =>
          (Util.Routed.last_seqno s).map (fun q => (s, q))) ≠ [] := by
        intro hp
        rw [hp] at hne
        exact hne rfl
      cases hsx : sort_desc_by_key (fun p : S × Int => p.2)
          (nodes.filterMap (fun s => (Util.Routed.last_seqno s).map (fun q => (s, q)))) with
      | nil =>
          rw [hsx] at hperm
          exact hpn hperm.symm.eq_nil
      | cons a as =>
          rw [util_choose_latest_eq, hsx, chunk_by_cons_eq] at h
          cases h
    · intro h
      have hpn : nodes.filterMap (fun s =>
          (Util.Routed.last_seqno s).map (fun q => (s, q))) = [] :=
        List.map_eq_nil_iff.mp (hks.symm.trans h)
      have hsn : sort_desc_by_key (fun p : S × Int => p.2)
          (nodes.filterMap (fun s => (Util.Routed.last_seqno s).map (fun q => (s, q)))) = [] := by
        rw [hpn]
        rfl
      rw [util_choose_latest_eq, hsn]
      rfl
  · intro m hm hub
    rw [hks] at hm hub
    rcases chunk_sorted_head
      (nodes.filterMap (fun s => (Util.Routed.last_seqno s).map (fun q => (s, q)))) m hm hub with
      ⟨t, hcs⟩
    refine ⟨_, by rw [util_choose_latest_eq, hcs], ?_⟩
    rw [← pairs_map_fst_filter Util.Routed.last_seqno m nodes]
    exact (hperm.filter (fun p : S × Int => p.2 == m)).map Prod.fst

theorem client_choose_latest_eq (services : List Client.CursorClient) (chain : Int) :
    Client.Route.choose (Client.Route.latest chain) services =
      (Client.pickGroup (chunk_by (fun p : Client.CursorClient × Int => p.2)
        (sort_desc_by_key (fun p => p.2)
          (services.filterMap (fun s =>
            (Client.last_seqno s chain).map (fun q => (s, q))))))).map Prod.fst := rfl

theorem client_latest_spec (services : List Client.CursorClient) (chain : Int) :
    (Client.Route.choose (Client.Route.latest chain) services = [] ↔
      Client.knownSeqnos services chain = []) ∧
    (∀ m, 2 < (Client.knownSeqnos services chain).count m →
      (∀ s, 2 < (Client.knownSeqnos services chain).count s → s ≤ m) →
      (Client.Route.choose (Client.Route.latest chain) services).Perm
        (services.filter (fun s => Client.last_seqno s chain == some m))) ∧
    ((∀ s, ¬ 2 < (Client.knownSeqnos services chain).count s) →
      ∀ m, m ∈ Client.knownSeqnos services chain →
        (∀ s ∈ Client.knownSeqnos services chain, m ≤ s) →
        (Client.Route.choose (Client.Route.latest chain) services).Perm
          (services.filter (fun s => Client.last_seqno s chain == some m))) := by
  have hks : Client.knownSeqnos services chain =
      (services.filterMap (fun s =>
        (Client.last_seqno s chain).map (fun q => (s, q)))).map Prod.snd :=
    (pairs_map_snd (fun s => Client.last_seqno s chain) services).symm
  have hperm := sort_desc_perm (fun p : Client.CursorClient × Int => p.2)
    (services.filterMap (fun s => (Client.last_seqno s chain).map (fun q => (s, q))))
  have hsortd := sort_desc_sorted (fun p : Client.CursorClient × Int => p.2)
    (services.filterMap (fun s => (Client.last_seqno s chain).map (fun q => (s, q))))
  refine ⟨⟨?_, ?_⟩, ?_, ?_⟩
  · intro h
    rw [hks]
    by_contra hne
    have hpn : services.filterMap (fun s =>
        (Client.last_seqno s chain).map (fun q => (s, q))) ≠ [] := by
      intro hp
      rw [hp] at hne
      exact hne rfl
    cases hsx : sort_desc_by_key (fun p : Client.CursorClient × Int => p.2)
        (services.filterMap (fun s => (Client.last_seqno s chain).map (fun q => (s, q)))) with
    | nil =>
        rw [hsx] at hperm
        exact hpn hperm.symm.eq_nil
    | cons a as =>
        rw [client_choose_latest_eq, hsx] at h
        have hpickmem : Client.pickGroup (chunk_by
            (fun p : Client.CursorClient × Int => p.2) (a :: as)) ∈
            chunk_by (fun p : Client.CursorClient × Int => p.2) (a :: as) := by
          rw [chunk_by_cons_eq]
          exact pickGroup_mem _ (by simp)
        rcases chunks_spec (fun p : Client.CursorClient × Int => p.2) (a :: as)
          (hsx ▸ hsortd) _ hpickmem with ⟨hne2, _, _, _⟩
        exact hne2 (List.map_eq_nil_iff.mp h)
  · intro h
    have hpn : services.filterMap (fun s =>
        (Client.last_seqno s chain).map (fun q => (s, q))) = [] :=
      List.map_eq_nil_iff.mp (hks.symm.trans h)
    have hsn : sort_desc_by_key (fun p : Client.CursorClient × Int => p.2)
        (services.filterMap (fun s =>
          (Client.last_seqno s chain).map (fun q => (s, q)))) = [] := by
      rw [hpn]
      rfl
    rw [client_choose_latest_eq, hsn]
    rfl
  · intro m hm hub
    rw [hks] at hm hub
    rw [client_choose_latest_eq,
      chunk_pick_quorum (services.filterMap (fun s =>
        (Client.last_seqno s chain).map (fun q => (s, q)))) m hm hub,
      ← pairs_map_fst_filter (fun s => Client.last_seqno s chain) m services]
    exact (hperm.filter (fun p : Client.CursorClient × Int => p.2 == m)).map Prod.fst
  · intro hnoq m hm hlb
    rw [hks] at hnoq hm hlb
    rw [client_choose_latest_eq,
      chunk_pick_min (services.filterMap (fun s =>
        (Client.last_seqno s chain).map (fun q => (s, q)))) m hnoq hm hlb,
      ← pairs_map_fst_filter (fun s => Client.last_seqno s chain) m services]
    exact (hperm.filter (fun p : Client.CursorClient × Int => p.2 == m)).map Prod.fst


/-- Claim C1, counterexample.  With reported seqnos [100, 100, 70] no group
has size strictly greater than 2, so the claim demands a RouteUnknown
failure; instead the ton-client-util choose returns the two nodes at
seqno 100 (the first group, regardless of size) and the tonlibjson-client
choose returns the single node at seqno 70 (the last group). -/
theorem c1_counterexample :
    Util.Route.choose Util.Route.latest [Fixtures.m100a, Fixtures.m100b, Fixtures.m70] =
      Except.ok [Fixtures.m100a, Fixtures.m100b] ∧
    Client.Route.choose (Client.Route.latest (-1))
        [Fixtures.c100a, Fixtures.c100b, Fixtures.c70] = [Fixtures.c70] ∧
    Util.knownSeqnos [Fixtures.m100a, Fixtures.m100b, Fixtures.m70] = [100, 100, 70] ∧
    (Util.knownSeqnos [Fixtures.m100a, Fixtures.m100b, Fixtures.m70]).count 100 = 2 ∧
    (Util.knownSeqnos [Fixtures.m100a, Fixtures.m100b, Fixtures.m70]).count 70 = 1 := by
  decide

/-- Claim C1, amended.  choose(Latest) ranks the nodes with a known head by
descending last seqno and groups them by equal seqno.  The ton-client-util
implementation returns exactly the first (maximal seqno) group regardless
of its size and fails RouteUnknown exactly when no node has a known head;
the tonlibjson-client implementation returns exactly the members of the
first group of size strictly greater than 2 when one exists, otherwise the
members of the last (minimal seqno) group, and returns the empty list
exactly when no node has a known head.  For reported seqnos
[100, 100, 100, 70] both return exactly the three nodes at seqno 100. -/
theorem c1_amended :
    (∀ (S : Type) [Util.Routed S] (nodes : List S),
      (Util.Route.choose Util.Route.latest nodes =
          Except.error Util.RouterError.routeUnknown ↔ Util.knownSeqnos nodes = []) ∧
      (∀ m, m ∈ Util.knownSeqnos nodes → (∀ s ∈ Util.knownSeqnos nodes, s ≤ m) →
        ∃ g, Util.Route.choose Util.Route.latest nodes = Except.ok g ∧
          g.Perm (nodes.filter (fun s => Util.Routed.last_seqno s == some m)))) ∧
    (∀ (services : List Client.CursorClient) (chain : Int),
      (Client.Route.choose (Client.Route.latest chain) services = [] ↔
        Client.knownSeqnos services chain = []) ∧
      (∀ m, 2 < (Client.knownSeqnos services chain).count m →
        (∀ s, 2 < (Client.knownSeqnos services chain).count s → s ≤ m) →
        (Client.Route.choose (Client.Route.latest chain) services).Perm
          (services.filter (fun s => Client.last_seqno s chain == some m))) ∧
      ((∀ s, ¬ 2 < (Client.knownSeqnos services chain).count s) →
        ∀ m, m ∈ Client.knownSeqnos services chain →
          (∀ s ∈ Client.knownSeqnos services chain, m ≤ s) →
          (Client.Route.choose (Client.Route.latest chain) services).Perm
            (services.filter (fun s => Client.last_seqno s chain == some m)))) ∧
    (Util.Route.choose Util.Route.latest
        [Fixtures.m100a, Fixtures.m100b, Fixtures.m100c, Fixtures.m70] =
      Except.ok [Fixtures.m100a, Fixtures.m100b, Fixtures.m100c] ∧
    Client.Route.choose (Client.Route.latest (-1))
        [Fixtures.c100a, Fixtures.c100b, Fixtures.c100c, Fixtures.c70] =
      [Fixtures.c100a, Fixtures.c100b, Fixtures.c100c]) :=
  ⟨fun S _ nodes => util_latest_spec nodes,
   fun services chain => client_latest_spec services chain,
   by decide, by decide⟩

/-- Claim C1, witness: the amended theorem applied at the four node
fixtures with maximal seqno 100 and quorum seqno 100. -/
theorem c1_amended_witness :
    (∃ g, Util.Route.choose Util.Route.latest
        [Fixtures.m100a, Fixtures.m100b, Fixtures.m100c, Fixtures.m70] = Except.ok g ∧
      g.Perm ([Fixtures.m100a, Fixtures.m100b, Fixtures.m100c, Fixtures.m70].filter
        (fun s => Util.Routed.last_seqno s == some 100))) ∧
    (Client.Route.choose (Client.Route.latest (-1))
        [Fixtures.c100a, Fixtures.c100b, Fixtures.c100c, Fixtures.c70]).Perm
      ([Fixtures.c100a, Fixtures.c100b, Fixtures.c100c, Fixtures.c70].filter
        (fun s => Client.last_seqno s (-1) == some 100)) := by
  have hu := (c1_amended.1 Util.MyRouted
    [Fixtures.m100a, Fixtures.m100b, Fixtures.m100c, Fixtures.m70]).2
  have hc := (c1_amended.2.1
    [Fixtures.c100a, Fixtures.c100b, Fixtures.c100c, Fixtures.c70] (-1)).2.1
  refine ⟨hu 100 (by decide) (by decide), hc 100 (by decide) ?_⟩
  intro s hs
  have hks : Client.knownSeqnos
      [Fixtures.c100a, Fixtures.c100b, Fixtures.c100c, Fixtures.c70] (-1) =
      [100, 100, 100, 70] := by decide
  rw [hks] at hs
  have hmem : s ∈ ([100, 100, 100, 70] : List Int) := by
    have hpos : 0 < ([100, 100, 100, 70] : List Int).count s := by omega
    exact List.count_pos_iff.mp hpos
  have : s = 100 ∨ s = 70 := by simpa using hmem
  rcases this with rfl | rfl
  · exact le_refl _
  · exact absurd hs (by decide)


theorem util_choose_block_eq {S : Type} [Util.Routed S] (chain : Int)
    (criteria : Util.BlockCriteria) (nodes : List S) :
    Util.Route.choose (Util.Route.block chain criteria) nodes =
      if (nodes.filter (fun s => Util.Routed.contains s chain criteria)).isEmpty then
        if nodes.any (fun s => !Util.Routed.contains s chain criteria &&
            Util.Routed.contains_not_available s chain criteria) then
          Except.error Util.RouterError.routeNotAvailable
        else
          Except.error Util.RouterError.routeUnknown
      else
        Except.ok (nodes.filter (fun s => Util.Routed.contains s chain criteria)) := rfl

theorem tracked_contains_iff (n : Util.TrackedNode) (chain shard s : Int) :
    Util.Routed.contains n chain (Util.BlockCriteria.seqno shard s) = true ↔
      ∃ fl, n.window chain shard = some fl ∧
        fl.1.id.seqno ≤ s ∧ s ≤ fl.2.id.seqno := by
  show (match n.window chain shard with
    | some fl => decide (fl.1.id.seqno ≤ s ∧ s ≤ fl.2.id.seqno)
    | none => false) = true ↔ _
  cases hw : n.window chain shard with
  | none => simp
  | some fl => simp [hw]

/-- Claim C2.  For every tracked node list and Block(chain, Seqno) route,
choose returns a non-empty list iff some node's window for that chain and
shard contains the seqno, that list is exactly the containing nodes, and
an empty selection fails RouteNotAvailable exactly when some node's
contains_not_available oracle holds, RouteUnknown otherwise. -/
theorem c2_block_route (nodes : List Util.TrackedNode) (chain shard s : Int) :
    ((∃ l, Util.Route.choose (Util.Route.block chain (Util.BlockCriteria.seqno shard s))
        nodes = Except.ok l ∧ l ≠ []) ↔
      ∃ n ∈ nodes, ∃ fl, n.window chain shard = some fl ∧
        fl.1.id.seqno ≤ s ∧ s ≤ fl.2.id.seqno) ∧
    (∀ l, Util.Route.choose (Util.Route.block chain (Util.BlockCriteria.seqno shard s))
        nodes = Except.ok l →
      l = nodes.filter (fun n =>
        Util.Routed.contains n chain (Util.BlockCriteria.seqno shard s))) ∧
    (Util.Route.choose (Util.Route.block chain (Util.BlockCriteria.seqno shard s)) nodes =
        Except.error Util.RouterError.routeNotAvailable ↔
      (∀ n ∈ nodes, ¬ Util.Routed.contains n chain
        (Util.BlockCriteria.seqno shard s) = true) ∧
      ∃ n ∈ nodes, n.not_available_oracle chain (Util.BlockCriteria.seqno shard s) = true) ∧
    (Util.Route.choose (Util.Route.block chain (Util.BlockCriteria.seqno shard s)) nodes =
        Except.error Util.RouterError.routeUnknown ↔
      (∀ n ∈ nodes, ¬ Util.Routed.contains n chain
        (Util.BlockCriteria.seqno shard s) = true) ∧
      ¬ ∃ n ∈ nodes, n.not_available_oracle chain (Util.BlockCriteria.seqno shard s) = true) := by
  rw [util_choose_block_eq]
  by_cases hc : (nodes.filter (fun n =>
      Util.Routed.contains n chain (Util.BlockCriteria.seqno shard s))).isEmpty
  · have hemp : ∀ n ∈ nodes, ¬ Util.Routed.contains n chain
        (Util.BlockCriteria.seqno shard s) = true := by
      rw [List.isEmpty_iff, List.filter_eq_nil_iff] at hc
      exact hc
    have hknown : (nodes.any (fun n => !Util.Routed.contains n chain
          (Util.BlockCriteria.seqno shard s) &&
          Util.Routed.contains_not_available n chain (Util.BlockCriteria.seqno shard s)))
        = true ↔
        ∃ n ∈ nodes, n.not_available_oracle chain (Util.BlockCriteria.seqno shard s) = true := by
      rw [List.any_eq_true]
      constructor
      · rintro ⟨n, hn, hb⟩
        rcases Bool.and_eq_true_iff.mp hb with ⟨_, hna⟩
        exact ⟨n, hn, hna⟩
      · rintro ⟨n, hn, hna⟩
        refine ⟨n, hn, Bool.and_eq_true_iff.mpr ⟨?_, hna⟩⟩
        simp [hemp n hn]
    refine ⟨?_, ?_, ?_, ?_⟩
    · simp only [hc, if_true]
      constructor
      · rintro ⟨l, hl, -⟩
        split at hl <;> cases hl
      · rintro ⟨n, hn, fl, hw, h1, h2⟩
        exact absurd ((tracked_contains_iff n chain shard s).mpr ⟨fl, hw, h1, h2⟩)
          (hemp n hn)
    · simp only [hc, if_true]
      intro l hl
      split at hl <;> cases hl
    · simp only [hc, if_true]
      constructor
      · intro h
        split at h
        · exact ⟨hemp, hknown.mp (by assumption)⟩
        · cases h
      · rintro ⟨-, hex⟩
        rw [if_pos (hknown.mpr hex)]
    · simp only [hc, if_true]
      constructor
      · intro h
        split at h
        · cases h
        · refine ⟨hemp, ?_⟩
          intro hex
          exact absurd (hknown.mpr hex) (by assumption)
      · rintro ⟨-, hex⟩
        rw [if_neg (fun hk => hex (hknown.mp hk))]
  · have hne : nodes.filter (fun n =>
        Util.Routed.contains n chain (Util.BlockCriteria.seqno shard s)) ≠ [] := by
      intro h
      rw [List.isEmpty_iff] at hc
      exact hc h
    obtain ⟨n0, hn0⟩ := List.exists_mem_of_ne_nil _ hne
    have hn0mem := (List.mem_filter.mp hn0).1
    have hn0c := (List.mem_filter.mp hn0).2
    refine ⟨?_, ?_, ?_, ?_⟩
    · simp only [hc, if_false]
      constructor
      · rintro -
        rcases (tracked_contains_iff n0 chain shard s).mp hn0c with ⟨fl, hw, h1, h2⟩
        exact ⟨n0, hn0mem, fl, hw, h1, h2⟩
      · rintro -
        exact ⟨_, rfl, hne⟩
    · simp only [hc, if_false]
      intro l hl
      cases hl
      rfl
    · simp only [hc, if_false]
      constructor
      · intro h
        cases h
      · rintro ⟨hemp, -⟩
        exact absurd hn0c (hemp n0 hn0mem)
    · simp only [hc, if_false]
      constructor
      · intro h
        cases h
      · rintro ⟨hemp, -⟩
        exact absurd hn0c (hemp n0 hn0mem)

/-- Claim C2, witness: a node serving seqnos 10 to 20 of chain 0, shard 8
is selected for seqno 15, and the failure cases at a missing window. -/
theorem c2_block_route_witness :
    (∃ n ∈ [Fixtures.tnode], ∃ fl, n.window 0 8 = some fl ∧
      fl.1.id.seqno ≤ (15 : Int) ∧ (15 : Int) ≤ fl.2.id.seqno) ∧
    Util.Route.choose (Util.Route.block 0 (Util.BlockCriteria.seqno 8 15)) [Fixtures.tnode] =
      Except.ok [Fixtures.tnode] ∧
    Util.Route.choose (Util.Route.block 0 (Util.BlockCriteria.seqno 8 25)) [Fixtures.tnode] =
      Except.error Util.RouterError.routeUnknown := by
  have h1 := (c2_block_route [Fixtures.tnode] 0 8 15).1
  have h2 := (c2_block_route [Fixtures.tnode] 0 8 15).2.1
  have h4 := (c2_block_route [Fixtures.tnode] 0 8 25).2.2.2
  refine ⟨?_, ?_, ?_⟩
  · refine h1.mp ⟨[Fixtures.tnode], ?_, by simp⟩
    rfl
  · have := h2 [Fixtures.tnode] rfl
    rfl
  · refine h4.mpr ⟨?_, ?_⟩
    · intro n hn
      rcases List.mem_singleton.mp hn with rfl
      intro hcon
      rcases (tracked_contains_iff _ 0 8 25).mp hcon with ⟨fl, hw, hle1, hle2⟩
      have hfl : fl = (Fixtures.testHeader 10 100, Fixtures.testHeader 20 200) := by
        have hw2 : Fixtures.tnode.window 0 8 =
            some (Fixtures.testHeader 10 100, Fixtures.testHeader 20 200) := rfl
        rw [hw2] at hw
        exact (Option.some.injEq _ _).mp hw.symm
      rw [hfl] at hle2
      simp [Fixtures.testHeader] at hle2
    · rintro ⟨n, hn, hna⟩
      rcases List.mem_singleton.mp hn with rfl
      cases hna


/-- Claim C3.  For every Block route, when choose fails RouteUnknown the
router call evaluates the Latest route over the same node set and returns
its result; when choose fails RouteNotAvailable the error is surfaced
unchanged with no fallback. -/
theorem c3_unknown_fallback :
    ∀ (S : Type) [Util.Routed S] (services : List S) (chain : Int)
      (criteria : Util.BlockCriteria),
      (Util.Route.choose (Util.Route.block chain criteria) services =
          Except.error Util.RouterError.routeUnknown →
        Util.Router.call services (Util.Route.block chain criteria) =
          Util.Route.choose Util.Route.latest services) ∧
      (Util.Route.choose (Util.Route.block chain criteria) services =
          Except.error Util.RouterError.routeNotAvailable →
        Util.Router.call services (Util.Route.block chain criteria) =
          Except.error Util.RouterError.routeNotAvailable) := by
  intro S inst services chain criteria
  constructor <;> intro h <;> simp [Util.Router.call, h]

/-- Claim C3, witness: a node with no coverage and no known head yields
RouteUnknown and the call falls back to Latest; a node with plausible
historical coverage yields RouteNotAvailable surfaced unchanged. -/
theorem c3_unknown_fallback_witness :
    Util.Router.call [Fixtures.mBlank]
        (Util.Route.block 0 (Util.BlockCriteria.logicalTime 5)) =
      Util.Route.choose Util.Route.latest [Fixtures.mBlank] ∧
    Util.Router.call [Fixtures.mKnown]
        (Util.Route.block 0 (Util.BlockCriteria.logicalTime 5)) =
      Except.error Util.RouterError.routeNotAvailable := by
  constructor
  · exact (c3_unknown_fallback Util.MyRouted [Fixtures.mBlank] 0
      (Util.BlockCriteria.logicalTime 5)).1 (by decide)
  · exact (c3_unknown_fallback Util.MyRouted [Fixtures.mKnown] 0
      (Util.BlockCriteria.logicalTime 5)).2 (by decide)

theorem table_remove_lookup (t : Lite.Table) (id : Nat) :
    (Lite.Table.remove t id).lookup id = none := by
  induction t with
  | nil => rfl
  | cons e rest ih =>
      by_cases h : e.1 = id
      · simp only [Lite.Table.remove, Lite.Table.lookup] at ih ⊢
        simp [h, ih]
      · simp only [Lite.Table.remove, Lite.Table.lookup] at ih ⊢
        simp [h, ih]

theorem table_insert_lookup (t : Lite.Table) (id slot : Nat) :
    (Lite.Table.insert t id slot).lookup id = some slot := by
  simp [Lite.Table.insert, Lite.Table.lookup]

/-- Claim C4.  Dropping a response future removes its correlation id from
the pending table, and a frame that later arrives with that id changes
nothing: no slot is resolved and nothing is delivered to any caller. -/
theorem c4_cancel_removes_slot (s : Lite.NodeState) (id payload : Nat) :
    (Lite.step s (Lite.Ev.dropFuture id)).table.lookup id = none ∧
    Lite.step (Lite.step s (Lite.Ev.dropFuture id)) (Lite.Ev.frame id payload) =
      Lite.step s (Lite.Ev.dropFuture id) := by
  constructor
  · exact table_remove_lookup s.table id
  · have hl : (s.table.remove id).lookup id = none := table_remove_lookup s.table id
    simp [Lite.step, Lite.on_frame, hl]

/-- Claim C6.  A call inserts the completion slot into the pending table
strictly before handing the frame to the transmit path, so a response
arriving right after transmission finds the slot and resolves the call. -/
theorem c6_insert_before_send (s : Lite.NodeState) (id slot payload : Nat)
    (h : s.taskAlive = true) :
    (Lite.client_call s id slot).2 =
      [Lite.CallAction.insertSlot id, Lite.CallAction.sendFrame id] ∧
    (Lite.client_call s id slot).1.table.lookup id = some slot ∧
    (Lite.step (Lite.client_call s id slot).1 (Lite.Ev.frame id payload)).delivered =
      (id, payload) :: (Lite.client_call s id slot).1.delivered := by
  refine ⟨by simp [Lite.client_call, h], by simp [Lite.client_call, h, table_insert_lookup], ?_⟩
  have hlook : (s.table.insert id slot).lookup id = some slot := table_insert_lookup s.table id slot
  simp [Lite.client_call, h, Lite.step, Lite.on_frame, hlook]

/-- Claim C6, witness: the theorem applied to a freshly connected node at
correlation id 7, slot 1 and payload 99. -/
theorem c6_insert_before_send_witness :
    (Lite.client_call Lite.connected 7 1).2 =
      [Lite.CallAction.insertSlot 7, Lite.CallAction.sendFrame 7] ∧
    (Lite.client_call Lite.connected 7 1).1.table.lookup 7 = some 1 ∧
    (Lite.step (Lite.client_call Lite.connected 7 1).1 (Lite.Ev.frame 7 99)).delivered =
      (7, 99) :: (Lite.client_call Lite.connected 7 1).1.delivered :=
  c6_insert_before_send Lite.connected 7 1 99 rfl

/-- Claim C9.  Every remote operation declares a default timeout of 3
seconds, except the sync-to-head operation with 5 minutes; the WithBlock
wrapper delegates, and the tonlibjson-tokio Request default is also 3
seconds. -/
theorem c9_timeouts :
    (∀ t : Timeouts.TonFunction,
      (t = Timeouts.TonFunction.sync → Timeouts.requestableTimeout t = 300) ∧
      (t ≠ Timeouts.TonFunction.sync → Timeouts.requestableTimeout t = 3)) ∧
    (∀ t, Timeouts.withBlockTimeout t = Timeouts.requestableTimeout t) ∧
    Timeouts.requestNewTimeout = 3 := by
  refine ⟨?_, fun t => rfl, rfl⟩
  intro t
  constructor
  · rintro rfl
    rfl
  · intro h
    simp [Timeouts.requestableTimeout, h]

/-- Claim C9, witness: the sync operation and an ordinary read. -/
theorem c9_timeouts_witness :
    Timeouts.requestableTimeout Timeouts.TonFunction.sync = 300 ∧
    Timeouts.requestableTimeout Timeouts.TonFunction.getMasterchainInfo = 3 :=
  ⟨(c9_timeouts.1 Timeouts.TonFunction.sync).1 rfl,
   (c9_timeouts.1 Timeouts.TonFunction.getMasterchainInfo).2 (by decide)⟩

/-- Claim C10.  A cursor client never reports ready while any of the first
header, last header or masterchain snapshot is undefined: poll_ready is
Pending then, and a non-Pending result implies all three are defined and
the result is the inner client's poll. -/
theorem c10_poll_ready (c : Cursor.TrackedState) (inner : Cursor.PollResult) :
    ((c.first_block = none ∨ c.last_block = none ∨ c.masterchain_info = none) →
      Cursor.poll_ready c inner = Cursor.PollResult.pending) ∧
    (Cursor.poll_ready c inner ≠ Cursor.PollResult.pending →
      c.first_block.isSome = true ∧ c.last_block.isSome = true ∧
        c.masterchain_info.isSome = true ∧ Cursor.poll_ready c inner = inner) := by
  unfold Cursor.poll_ready
  by_cases h : (c.last_block.isSome && c.first_block.isSome && c.masterchain_info.isSome) = true
  · rw [if_pos h]
    rcases Bool.and_eq_true_iff.mp h with ⟨h12, h3⟩
    rcases Bool.and_eq_true_iff.mp h12 with ⟨h1, h2⟩
    constructor
    · rintro (hn | hn | hn)
      · rw [hn] at h2
        simp at h2
      · rw [hn] at h1
        simp at h1
      · rw [hn] at h3
        simp at h3
    · intro _
      exact ⟨h2, h1, h3, rfl⟩
  · rw [if_neg h]
    exact ⟨fun _ => rfl, fun hne => absurd rfl hne⟩

/-- Claim C10, witness: with the first header still undefined the client
is Pending even when the inner service is ready. -/
theorem c10_poll_ready_witness :
    Cursor.poll_ready
        { first_block := none, last_block := none, masterchain_info := none }
        Cursor.PollResult.ready = Cursor.PollResult.pending :=
  (c10_poll_ready _ _).1 (Or.inl rfl)


theorem bsLoop_spec (probe : Nat → Bool) :
    ∀ fuel k lhs rhs cur : Nat, lhs ≤ rhs → rhs - lhs < fuel → rhs - lhs < 2 ^ k →
      (lhs < rhs → lhs ≤ cur ∧ cur < rhs ∧ rhs - cur - 1 ≤ (rhs - lhs) / 2 ∧
        cur - lhs ≤ (rhs - lhs) / 2) →
      ∃ t l r c, Cursor.bsLoop probe fuel lhs rhs cur = some (t, l, r, c) ∧
        t.length ≤ k ∧ l = r ∧ (lhs < rhs → c = l) ∧
        (¬ lhs < rhs → l = lhs ∧ r = rhs ∧ c = cur) ∧
        (cur :: t).getLast? = some c := by
  intro fuel
  induction fuel with
  | zero =>
      intro k lhs rhs cur hle hfuel hk hinv
      omega
  | succ fuel ih =>
      intro k lhs rhs cur hle hfuel hk hinv
      by_cases hlt : lhs < rhs
      · rcases hinv hlt with ⟨hc1, hc2, hc3, hc4⟩
        cases k with
        | zero =>
            exfalso
            have hpow : (2 : Nat) ^ 0 = 1 := rfl
            omega
        | succ k0 =>
            have hpow : (2 : Nat) ^ (k0 + 1) = 2 * 2 ^ k0 := by ring
            by_cases hp : probe cur = true
            · have hgap : cur - lhs < fuel := by omega
              have hgapk : cur - lhs < 2 ^ k0 := by omega
              have hinv2 : lhs < cur → lhs ≤ (lhs + cur) / 2 ∧ (lhs + cur) / 2 < cur ∧
                  cur - (lhs + cur) / 2 - 1 ≤ (cur - lhs) / 2 ∧
                  (lhs + cur) / 2 - lhs ≤ (cur - lhs) / 2 := by
                intro h
                omega
              rcases ih k0 lhs cur ((lhs + cur) / 2) (by omega) hgap hgapk hinv2 with
                ⟨t, l, r, c, heq, hlen, hlr, hcl, hncl, hlast⟩
              refine ⟨(lhs + cur) / 2 :: t, l, r, c, ?_, ?_, hlr, ?_, ?_, ?_⟩
              · simp [Cursor.bsLoop, hlt, hp, heq]
              · simpa using Nat.succ_le_succ hlen
              · intro _
                by_cases h2 : lhs < cur
                · exact hcl h2
                · rcases hncl h2 with ⟨e1, e2, e3⟩
                  omega
              · intro h2
                exact absurd hlt h2
              · rw [List.getLast?_cons_cons]
                exact hlast
            · have hp2 : probe cur = false := by
                cases hpc : probe cur
                · rfl
                · exact absurd hpc hp
              have hgap : rhs - (cur + 1) < fuel := by omega
              have hgapk : rhs - (cur + 1) < 2 ^ k0 := by omega
              have hinv2 : cur + 1 < rhs → cur + 1 ≤ (cur + 1 + rhs) / 2 ∧
                  (cur + 1 + rhs) / 2 < rhs ∧
                  rhs - (cur + 1 + rhs) / 2 - 1 ≤ (rhs - (cur + 1)) / 2 ∧
                  (cur + 1 + rhs) / 2 - (cur + 1) ≤ (rhs - (cur + 1)) / 2 := by
                intro h
                omega
              rcases ih k0 (cur + 1) rhs ((cur + 1 + rhs) / 2) (by omega) hgap hgapk hinv2 with
                ⟨t, l, r, c, heq, hlen, hlr, hcl, hncl, hlast⟩
              refine ⟨(cur + 1 + rhs) / 2 :: t, l, r, c, ?_, ?_, hlr, ?_, ?_, ?_⟩
              · simp [Cursor.bsLoop, hlt, hp2, heq]
              · simpa using Nat.succ_le_succ hlen
              · intro _
                by_cases h2 : cur + 1 < rhs
                · exact hcl h2
                · rcases hncl h2 with ⟨e1, e2, e3⟩
                  omega
              · intro h2
                exact absurd hlt h2
              · rw [List.getLast?_cons_cons]
                exact hlast
      · have hlr : lhs = rhs := by omega
        refine ⟨[], lhs, rhs, cur, ?_, by simp, hlr, fun h => absurd h hlt,
          fun _ => ⟨rfl, rfl, rfl⟩, by simp⟩
        simp [Cursor.bsLoop, hlt]

/-- Claim C5, amended.  The binary search moves the lower bound to cur + 1
on probe failure and the upper bound down to cur on success, terminates
with the bounds met, performs at most ceil(log2(head_seqno)) + 1 probes
(one more than the claim states), the last probe is at the final cursor,
which for head_seqno at least 2 equals the converged bound, and a header
is returned only when that final probe succeeded, at exactly that seqno. -/
theorem c5_amended (probe : Nat → Bool) (n : Nat) (h1 : 1 ≤ n) :
    ∃ t l r c, Cursor.find_first_block probe n = some (t, l, r, c) ∧
      t.length ≤ Nat.clog 2 n + 1 ∧
      l = r ∧
      t.getLast? = some c ∧
      (2 ≤ n → c = l) ∧
      (∀ s, Cursor.first_block_seqno probe n = some s → probe s = true ∧ s = c) := by
  have hclog : n ≤ 2 ^ Nat.clog 2 n := Nat.le_pow_clog (by norm_num) n
  have hinv : 1 < n → 1 ≤ n / 2 ∧ n / 2 < n ∧ n - n / 2 - 1 ≤ (n - 1) / 2 ∧
      n / 2 - 1 ≤ (n - 1) / 2 := by
    intro h
    omega
  rcases bsLoop_spec probe (n + 1) (Nat.clog 2 n) 1 n (n / 2) h1 (by omega)
    (by omega) hinv with ⟨t, l, r, c, heq, hlen, hlr, hcl, hncl, hlast⟩
  refine ⟨n / 2 :: t, l, r, c, ?_, ?_, hlr, hlast, ?_, ?_⟩
  · rw [Cursor.find_first_block, heq]
    rfl
  · simpa using Nat.succ_le_succ hlen
  · intro h2
    exact hcl (by omega)
  · intro s hs
    rw [Cursor.first_block_seqno, Cursor.find_first_block, heq] at hs
    simp only [Option.map_some', Option.some_bind] at hs
    by_cases hpc : probe c = true
    · rw [if_pos hpc] at hs
      cases hs
      exact ⟨hpc, rfl⟩
    · rw [if_neg hpc] at hs
      cases hs

/-- Claim C5, witness: the amended theorem applied at head seqno 4 with
every probe failing. -/
theorem c5_amended_witness :
    (1 : Nat) ≤ 4 ∧
    ∃ t l r c, Cursor.find_first_block (fun _ => false) 4 = some (t, l, r, c) ∧
      t.length ≤ Nat.clog 2 4 + 1 ∧
      l = r ∧
      t.getLast? = some c ∧
      (2 ≤ 4 → c = l) ∧
      (∀ s, Cursor.first_block_seqno (fun _ => false) 4 = some s →
        (fun _ => false : Nat → Bool) s = true ∧ s = c) :=
  ⟨by norm_num, c5_amended (fun _ => false) 4 (by norm_num)⟩

/-- Claim C5, counterexample.  At head seqno 4 with every probe failing the
search makes 3 probes, at seqnos 2, 3 and 4, while ceil(log2(4)) = 2, so
the claimed bound of at most ceil(log2(head_seqno)) probes is violated. -/
theorem c5_counterexample :
    Cursor.find_first_block (fun _ => false) 4 = some ([2, 3, 4], 4, 4, 4) ∧
    Nat.clog 2 4 = 2 ∧
    ¬ ([2, 3, 4] : List Nat).length ≤ 2 := by
  refine ⟨by decide, ?_, by decide⟩
  have hle : Nat.clog 2 4 ≤ 2 :=
    (Nat.le_pow_iff_clog_le (by norm_num)).mp (by norm_num)
  have hgt : ¬ Nat.clog 2 4 ≤ 1 := by
    intro hc
    have h4 : (4 : Nat) ≤ 2 ^ 1 := (Nat.le_pow_iff_clog_le (by norm_num)).mpr hc
    norm_num at h4
  omega


/-- Claim C7, counterexample.  One call is outstanding when the client
handle is dropped: the response future still holds the cancellation
guard, so cancellation does not fire and the task keeps running; the call
is not failed with a transport-closed error, and when its response frame
arrives it resolves with its payload, exactly as the repository's
client_drop_test asserts. -/
theorem c7_counterexample :
    (Lite.run Lite.connected [Lite.Ev.call 7 1, Lite.Ev.dropHandle]).futures = [7] ∧
    (Lite.run Lite.connected [Lite.Ev.call 7 1, Lite.Ev.dropHandle]).handle = false ∧
    (Lite.run Lite.connected
        [Lite.Ev.call 7 1, Lite.Ev.dropHandle, Lite.Ev.cancelFire]).taskAlive = true ∧
    (Lite.run Lite.connected
        [Lite.Ev.call 7 1, Lite.Ev.dropHandle, Lite.Ev.frame 7 99]).delivered = [(7, 99)] := by
  decide

/-- Claim C7, amended.  Dropping the client handle neither cancels the
background task nor fails pending calls: cancellation cannot fire while
any response future is live, dropping the handle leaves the pending
table, the futures and the task untouched, and a pending call still
resolves with its own payload when its frame later arrives. -/
theorem c7_amended :
    (∀ s : Lite.NodeState, s.futures ≠ [] → Lite.step s Lite.Ev.cancelFire = s) ∧
    (∀ s : Lite.NodeState,
      (Lite.step s Lite.Ev.dropHandle).table = s.table ∧
      (Lite.step s Lite.Ev.dropHandle).futures = s.futures ∧
      (Lite.step s Lite.Ev.dropHandle).delivered = s.delivered ∧
      (Lite.step s Lite.Ev.dropHandle).taskAlive = s.taskAlive) ∧
    (∀ (s : Lite.NodeState) (id slot payload : Nat), s.taskAlive = true →
      (Lite.step (Lite.step (Lite.step s (Lite.Ev.call id slot)) Lite.Ev.dropHandle)
          (Lite.Ev.frame id payload)).delivered =
        (id, payload) :: (Lite.step s (Lite.Ev.call id slot)).delivered) := by
  refine ⟨?_, fun s => ⟨rfl, rfl, rfl, rfl⟩, ?_⟩
  · intro s hne
    have hg : s.guards ≠ 0 := by
      have hl : s.futures.length ≠ 0 := fun h => hne (List.eq_nil_of_length_eq_zero h)
      have h2 : s.futures.length ≤ s.guards := Nat.le_add_left _ _
      omega
    have hb : (s.guards == 0) = false := by
      simpa using hg
    simp [Lite.step, hb]
  · intro s id slot payload h
    have hlook : (s.table.insert id slot).lookup id = some slot :=
      table_insert_lookup s.table id slot
    simp [Lite.step, Lite.client_call, h, Lite.on_frame, hlook]

/-- Claim C7, witness: the amended theorem applied to a connected node
with one outstanding call at id 7 and a frame with payload 99. -/
theorem c7_amended_witness :
    (Lite.step (Lite.step (Lite.step Lite.connected (Lite.Ev.call 7 1)) Lite.Ev.dropHandle)
        (Lite.Ev.frame 7 99)).delivered =
      (7, 99) :: (Lite.step Lite.connected (Lite.Ev.call 7 1)).delivered :=
  c7_amended.2.2 Lite.connected 7 1 99 rfl

theorem chanStep_members (mode : Chan.Mode) (s : Chan.ChanState) (k : Nat)
    (master worker : BlockHeader) :
    (Chan.chanStep mode s (Chan.ChanEv.item k master worker)).members = s.members := by
  simp only [Chan.chanStep]
  split
  · split
    · rfl
    · rfl
  · rfl

theorem chanRun_members (mode : Chan.Mode) :
    ∀ (evs : List Chan.ChanEv) (s : Chan.ChanState),
      (Chan.chanRun mode s evs).members = Chan.memberFold s.members evs
  | [], _ => rfl
  | Chan.ChanEv.insert k :: evs, s => chanRun_members mode evs _
  | Chan.ChanEv.remove k :: evs, s => chanRun_members mode evs _
  | Chan.ChanEv.item k master worker :: evs, s => by
      show (Chan.chanRun mode (Chan.chanStep mode s (Chan.ChanEv.item k master worker))
        evs).members = Chan.memberFold s.members evs
      rw [chanRun_members mode evs, chanStep_members]

theorem chanRun_cons (mode : Chan.Mode) (s : Chan.ChanState) (e : Chan.ChanEv)
    (evs : List Chan.ChanEv) :
    Chan.chanRun mode s (e :: evs) = Chan.chanRun mode (Chan.chanStep mode s e) evs := rfl

theorem publishCond_rel (mode : Chan.Mode) (last q : Int)
    (h : Chan.publishCond mode last q = true) (hne : last ≠ 0) :
    Chan.modeRel mode last q := by
  cases mode <;>
    simpa [Chan.publishCond, Chan.modeRel, hne] using h

theorem chanRun_invariant (mode : Chan.Mode) :
    ∀ (evs : List Chan.ChanEv) (s : Chan.ChanState),
      (∀ e ∈ evs, ∀ k m w, e = Chan.ChanEv.item k m w → 0 < m.id.seqno) →
      (Chan.publishedSeqnos s).Chain' (Chan.modeRel mode) →
      (∀ q ∈ Chan.publishedSeqnos s, 0 < q) →
      s.last_seqno = (Chan.publishedSeqnos s).getLast?.getD 0 →
      (Chan.publishedSeqnos (Chan.chanRun mode s evs)).Chain' (Chan.modeRel mode) ∧
      (∀ q ∈ Chan.publishedSeqnos (Chan.chanRun mode s evs), 0 < q) ∧
      (Chan.chanRun mode s evs).last_seqno =
        (Chan.publishedSeqnos (Chan.chanRun mode s evs)).getLast?.getD 0
  | [], s, _, hch, hpos, htr => ⟨hch, hpos, htr⟩
  | e :: evs, s, hevs, hch, hpos, htr => by
      have hevs2 : ∀ e2 ∈ evs, ∀ k m w, e2 = Chan.ChanEv.item k m w → 0 < m.id.seqno :=
        fun e2 he2 => hevs e2 (List.mem_cons_of_mem e he2)
      rw [chanRun_cons]
      cases e with
      | insert k => exact chanRun_invariant mode evs _ hevs2 hch hpos htr
      | remove k => exact chanRun_invariant mode evs _ hevs2 hch hpos htr
      | item k master worker =>
          have hm : 0 < master.id.seqno :=
            hevs _ (List.mem_cons_self _ _) k master worker rfl
          by_cases hk : k ∈ s.members
          · by_cases hcond :
                Chan.publishCond mode s.last_seqno master.id.seqno = true
            · have hstep : Chan.chanStep mode s (Chan.ChanEv.item k master worker) =
                  { s with last_seqno := master.id.seqno
                           published := s.published ++ [(master, worker)] } := by
                simp only [Chan.chanStep]
                rw [if_pos hk, if_pos hcond]
              rw [hstep]
              have hps : Chan.publishedSeqnos
                  { s with last_seqno := master.id.seqno
                           published := s.published ++ [(master, worker)] } =
                  Chan.publishedSeqnos s ++ [master.id.seqno] := by
                simp [Chan.publishedSeqnos]
              apply chanRun_invariant mode evs _ hevs2
              · rw [hps, List.chain'_append]
                refine ⟨hch, List.chain'_singleton _, ?_⟩
                intro x hx y hy
                simp only [List.head?_cons, Option.mem_def, Option.some.injEq] at hy
                subst hy
                have hxs : x ∈ Chan.publishedSeqnos s := List.mem_of_mem_getLast? hx
                have hxpos : 0 < x := hpos x hxs
                have hlx : s.last_seqno = x := by
                  rw [htr, Option.mem_def.mp hx]
                  rfl
                have hrel := publishCond_rel mode s.last_seqno master.id.seqno hcond
                  (by omega)
                rw [hlx] at hrel
                exact hrel
              · rw [hps]
                intro q hq
                rcases List.mem_append.mp hq with hq1 | hq2
                · exact hpos q hq1
                · rw [List.mem_singleton.mp hq2]
                  exact hm
              · rw [hps]
                show master.id.seqno = _
                rw [List.getLast?_concat]
                rfl
            · have hstep : Chan.chanStep mode s (Chan.ChanEv.item k master worker) = s := by
                simp only [Chan.chanStep]
                rw [if_pos hk, if_neg hcond]
              rw [hstep]
              exact chanRun_invariant mode evs _ hevs2 hch hpos htr
          · have hstep : Chan.chanStep mode s (Chan.ChanEv.item k master worker) = s := by
              simp only [Chan.chanStep]
              rw [if_neg hk]
            rw [hstep]
            exact chanRun_invariant mode evs _ hevs2 hch hpos htr


/-- Claim C8, counterexample.  In Max mode two successive items with
masterchain seqno 0 are both published, because the tracker is 0 both
times; the second published seqno does not strictly exceed the first, so
the published sequence is not strictly increasing and the claimed iff
fails. -/
theorem c8_counterexample :
    Chan.publishedSeqnos (Chan.chanRun Chan.Mode.max Chan.chanInit
      [Chan.ChanEv.insert 1, Chan.ChanEv.item 1 Fixtures.h0 Fixtures.h0,
       Chan.ChanEv.item 1 Fixtures.h0 Fixtures.h0]) = [0, 0] ∧
    ¬ ((0 : Int) < 0) := by
  constructor
  · decide
  · decide

/-- Claim C8, amended.  An item of a member stream is published iff the
tracker is 0 (initially, or after a published item with seqno 0) or, in
Max mode, its masterchain seqno strictly exceeds the tracker, in Min mode
is strictly below it; the tracker records the last published seqno.  When
every incoming seqno is positive the published seqnos are strictly
increasing in Max mode and strictly decreasing in Min mode.  Member
streams are added and removed at runtime by the Insert and Remove events
alone, items never change membership, and the aggregator processes any
event sequence. -/
theorem c8_amended :
    (∀ (s : Chan.ChanState) (k : Nat) (master worker : BlockHeader), k ∈ s.members →
      (Chan.chanStep Chan.Mode.max s (Chan.ChanEv.item k master worker)).published =
        (if s.last_seqno = 0 ∨ s.last_seqno < master.id.seqno then
          s.published ++ [(master, worker)] else s.published)) ∧
    (∀ (s : Chan.ChanState) (k : Nat) (master worker : BlockHeader), k ∈ s.members →
      (Chan.chanStep Chan.Mode.min s (Chan.ChanEv.item k master worker)).published =
        (if s.last_seqno = 0 ∨ master.id.seqno < s.last_seqno then
          s.published ++ [(master, worker)] else s.published)) ∧
    (∀ (mode : Chan.Mode) (evs : List Chan.ChanEv),
      (∀ e ∈ evs, ∀ k m w, e = Chan.ChanEv.item k m w → 0 < m.id.seqno) →
      (Chan.publishedSeqnos (Chan.chanRun mode Chan.chanInit evs)).Chain'
        (Chan.modeRel mode)) ∧
    (∀ (mode : Chan.Mode) (s : Chan.ChanState) (evs : List Chan.ChanEv),
      (Chan.chanRun mode s evs).members = Chan.memberFold s.members evs) := by
  refine ⟨?_, ?_, ?_, fun mode s evs => chanRun_members mode evs s⟩
  · intro s k master worker hk
    have hb : Chan.publishCond Chan.Mode.max s.last_seqno master.id.seqno = true ↔
        (s.last_seqno = 0 ∨ s.last_seqno < master.id.seqno) := by
      simp [Chan.publishCond]
    simp only [Chan.chanStep, if_pos hk]
    by_cases h : s.last_seqno = 0 ∨ s.last_seqno < master.id.seqno
    · rw [if_pos (hb.mpr h), if_pos h]
    · rw [if_neg (fun hc => h (hb.mp hc)), if_neg h]
  · intro s k master worker hk
    have hb : Chan.publishCond Chan.Mode.min s.last_seqno master.id.seqno = true ↔
        (s.last_seqno = 0 ∨ master.id.seqno < s.last_seqno) := by
      simp [Chan.publishCond]
    simp only [Chan.chanStep, if_pos hk]
    by_cases h : s.last_seqno = 0 ∨ master.id.seqno < s.last_seqno
    · rw [if_pos (hb.mpr h), if_pos h]
    · rw [if_neg (fun hc => h (hb.mp hc)), if_neg h]
  · intro mode evs hpos
    exact (chanRun_invariant mode evs Chan.chanInit hpos List.chain'_nil
      (by intro q hq; cases hq) rfl).1

/-- Claim C8, witness: a member item with seqno 7 over tracker 5 is
published in Max mode, and a concrete run with seqnos 5 then 7 yields a
strictly increasing published sequence. -/
theorem c8_amended_witness :
    (Chan.chanStep Chan.Mode.max
        { members := [1], last_seqno := 5, published := [] }
        (Chan.ChanEv.item 1 Fixtures.h7 Fixtures.h7)).published =
      [(Fixtures.h7, Fixtures.h7)] ∧
    (Chan.publishedSeqnos (Chan.chanRun Chan.Mode.max Chan.chanInit
      [Chan.ChanEv.insert 1, Chan.ChanEv.item 1 Fixtures.h5 Fixtures.h5,
       Chan.ChanEv.item 1 Fixtures.h7 Fixtures.h7])).Chain'
      (Chan.modeRel Chan.Mode.max) := by
  constructor
  · have h1 := c8_amended.1 { members := [1], last_seqno := 5, published := [] }
      1 Fixtures.h7 Fixtures.h7 (by decide)
    rw [h1, if_pos]
    · rfl
    · right
      decide
  · apply c8_amended.2.2.1 Chan.Mode.max
    intro e he k m w heq
    rw [heq] at he
    simp at he
    rcases he with ⟨-, hm, -⟩ | ⟨-, hm, -⟩ <;> rw [hm] <;> decide

end Tonlib
